import Mathlib

/-!
# Verification of the ST95xx EEPROM SPI driver (STM32_EEPROM_SPI.c)

A shallow embedding of the driver's core algorithms:

* `EEPROM_SPI_WriteBuffer_subwrites` — the buffered-write splitting algorithm
  of `EEPROM_SPI_WriteBuffer` (lines 107-213): the ordered list of
  (address, length, buffer-offset) triples passed to `EEPROM_SPI_WritePage`.
  All address arithmetic is 16-bit (`uint16_t WriteAddr`), modelled as natural
  numbers reduced modulo 2^16 at each `WriteAddr += ...` step (`u16`).
* `runSubWrites` / `EEPROM_SPI_WriteBuffer` — the execution of those calls
  with the source's early-return-on-failure pattern, parameterised by an
  oracle giving the status returned by the n-th page write.
* `transmitLoopAux` / `EEPROM_SPI_WritePage` — the 5-attempt payload transmit
  retry loop (lines 71-79) and the final status mapping (lines 90-94).
* `EEPROM_SPI_WritePage_trace` — the bus-event sequence of one page write
  (lines 47-95).
* `EEPROM_SPI_WaitStandbyState` — the status-register standby poll
  (lines 359-384), with explicit fuel so that non-termination is observable.
-/

/-- Reduction modulo 2^16: the semantics of storing into a `uint16_t`. -/
def u16 (n : ℕ) : ℕ := n % 65536

/-- `HAL_StatusTypeDef`: result of a HAL SPI transmit/receive call. -/
inductive HALStatus where
  | ok
  | error
  | busy
  | timeout
  deriving Repr, DecidableEq

/-- `EepromOperations`: the driver's operation-outcome type. -/
inductive EepromOperations where
  | complete
  | pending
  | error
  deriving Repr, DecidableEq

/-- One page-write call issued by `EEPROM_SPI_WriteBuffer`:
destination address, byte count, and offset of `pBuffer` from the caller's
original buffer pointer. -/
structure SubWrite where
  addr : ℕ
  len  : ℕ
  off  : ℕ
  deriving Repr, DecidableEq

/-- The `while (NumOfPage--)` loops of `EEPROM_SPI_WriteBuffer`
(lines 128-138 and 187-198): issue `n` full-page writes of `P` bytes,
advancing `WriteAddr` (16-bit, wrapping) and `pBuffer` by `P` each time.
Returns the issued sub-writes together with the final (address, offset). -/
def pageLoop (P : ℕ) : ℕ → ℕ → ℕ → List SubWrite × ℕ × ℕ
  | 0, addr, off => ([], addr, off)
  | n + 1, addr, off =>
    let r := pageLoop P n (u16 (addr + P)) (off + P)
    (⟨addr, P, off⟩ :: r.1, r.2)

/-- The splitting algorithm of `EEPROM_SPI_WriteBuffer` (lines 107-213):
the ordered list of page-write calls it issues, as a function of the page
size `P` (`eeprom_h->EEPROM_PAGESIZE`), the destination address `A`
(`WriteAddr`) and the byte count `L` (`NumByteToWrite`).  The sequence of
calls does not depend on the calls' results (the code only uses a result to
return early), so it is a pure function of `(P, A, L)`; the early-return
behaviour is modelled separately by `runSubWrites`. -/
def EEPROM_SPI_WriteBuffer_subwrites (P A L : ℕ) : List SubWrite :=
  let Addr := A % P                 -- line 113
  let count := P - Addr             -- line 114
  let NumOfPage := L / P            -- line 115
  let NumOfSingle := L % P          -- line 116
  if Addr = 0 then                  -- line 118: WriteAddr is page aligned
    if NumOfPage = 0 then
      [⟨A, L, 0⟩]                   -- lines 120-121
    else
      -- lines 128-138 then the unconditional remainder write, lines 140-141
      let r := pageLoop P NumOfPage A 0
      r.1 ++ [⟨r.2.1, NumOfSingle, r.2.2⟩]
  else                              -- line 147: WriteAddr not page aligned
    if NumOfPage = 0 then
      if NumOfSingle > count then   -- line 149
        -- lines 150-162: fill the current page, then the leftover
        [⟨A, count, 0⟩, ⟨u16 (A + count), NumOfSingle - count, count⟩]
      else
        [⟨A, L, 0⟩]                 -- lines 164-165
    else
      -- line 172: NumByteToWrite -= count (count ≤ L here, so no underflow)
      let L2 := L - count
      let NumOfPage2 := L2 / P      -- line 173
      let NumOfSingle2 := L2 % P    -- line 174
      -- lines 176-185: fill the current page
      -- lines 187-198: full pages; lines 200-208: guarded remainder
      let r := pageLoop P NumOfPage2 (u16 (A + count)) count
      ⟨A, count, 0⟩ :: r.1 ++
        (if NumOfSingle2 ≠ 0 then [⟨r.2.1, NumOfSingle2, r.2.2⟩] else [])

/-- Execute a list of sub-writes in order, where `st n` is the status
returned by the n-th `EEPROM_SPI_WritePage` call; mirror the source's
`if (pageWriteStatus != EEPROM_STATUS_COMPLETE) return pageWriteStatus;`
after every call (the pattern follows each of the 8 call sites).  Returns
the overall status and the sub-writes actually attempted. -/
def runSubWrites (st : ℕ → EepromOperations) :
    ℕ → List SubWrite → EepromOperations × List SubWrite
  | _, [] => (.complete, [])        -- line 212
  | n, w :: ws =>
    if st n = EepromOperations.complete then
      let r := runSubWrites st (n + 1) ws
      (r.1, w :: r.2)
    else
      (st n, [w])

/-- `EEPROM_SPI_WriteBuffer` (lines 107-213): execute the computed
sub-writes with early return on the first non-Complete page-write status. -/
def EEPROM_SPI_WriteBuffer (st : ℕ → EepromOperations) (P A L : ℕ) :
    EepromOperations × List SubWrite :=
  runSubWrites st 0 (EEPROM_SPI_WriteBuffer_subwrites P A L)

/-- The payload transmit retry loop of `EEPROM_SPI_WritePage`
(lines 71-79): `f i` is the `HAL_SPI_Transmit` status of attempt `i`;
`r` is the number of loop iterations still allowed after the current one
(the C loop runs `i = 0 .. 4`).  Returns the final value of
`spiTransmitStatus` and the number of transmit attempts performed. -/
def transmitLoopAux (f : ℕ → HALStatus) : ℕ → ℕ → HALStatus × ℕ
  | i, 0 => (f i, i + 1)
  | i, r + 1 =>
    if f i = HALStatus.busy then transmitLoopAux f (i + 1) r
    else (f i, i + 1)

/-- The full 5-attempt retry loop: final `spiTransmitStatus` and number of
attempts made. -/
def transmitLoop (f : ℕ → HALStatus) : HALStatus × ℕ :=
  transmitLoopAux f 0 4

/-- The return value of `EEPROM_SPI_WritePage` (lines 90-94): Error exactly
when the payload transmit loop ended with `HAL_ERROR`, Complete otherwise. -/
def EEPROM_SPI_WritePage (f : ℕ → HALStatus) : EepromOperations :=
  if (transmitLoop f).1 = HALStatus.error then EepromOperations.error
  else EepromOperations.complete

/-- One observable action on the SPI bus / control pins, as performed by the
page-write, read and standby-poll routines. -/
inductive BusEvent where
  /-- The `while (State != HAL_SPI_STATE_READY)` poll (lines 48-50, 224-226). -/
  | waitBusReady
  /-- `EEPROM_CS_LOW()`: select the chip. -/
  | csLow
  /-- `EEPROM_CS_HIGH()`: deselect the chip. -/
  | csHigh
  /-- `EEPROM_SPI_SendInstruction(bytes, n)`: transmit `bytes` on the bus. -/
  | sendInstruction (bytes : List ℕ)
  /-- `HAL_SPI_Transmit` of the payload buffer: attempt number `i` (line 72). -/
  | transmitPayload (i : ℕ)
  /-- `EEPROM_Delay(ms)`. -/
  | delayMs (ms : ℕ)
  /-- `EEPROM_SPI_WaitStandbyState()`: poll the status register until the
  write-in-progress flag clears (line 85). -/
  | pollStandby
  /-- `HAL_SPI_Receive` of `len` payload bytes (line 244). -/
  | receiveData (len : ℕ)
  deriving Repr, DecidableEq

/-- `sEE_WriteEnable` (lines 292-302): select, send the 1-byte WREN opcode,
deselect. -/
def sEE_WriteEnable_trace (wren : ℕ) : List BusEvent :=
  [BusEvent.csLow, BusEvent.sendInstruction [wren % 256], BusEvent.csHigh]

/-- `sEE_WriteDisable` (lines 310-321): select, send the 1-byte WRDI opcode,
deselect. -/
def sEE_WriteDisable_trace (wrdi : ℕ) : List BusEvent :=
  [BusEvent.csLow, BusEvent.sendInstruction [wrdi % 256], BusEvent.csHigh]

/-- Bus events of the payload retry loop (lines 71-79): attempt `i`, then a
5 ms delay and a retry while the bus reports busy, `r` retries remaining.
A delay also follows a busy report on the final allowed attempt. -/
def payloadAttemptTrace (f : ℕ → HALStatus) : ℕ → ℕ → List BusEvent
  | i, 0 =>
    BusEvent.transmitPayload i ::
      (if f i = HALStatus.busy then [BusEvent.delayMs 5] else [])
  | i, r + 1 =>
    BusEvent.transmitPayload i ::
      (if f i = HALStatus.busy then
        BusEvent.delayMs 5 :: payloadAttemptTrace f (i + 1) r
      else [])

/-- The bus-event sequence of one `EEPROM_SPI_WritePage` call (lines 47-95):
wait for bus idle; write-enable; select; 3-byte header (write opcode, then
the 16-bit address high byte first — lines 61-63); payload attempts;
deselect; standby poll; write-disable.  Header bytes are stored in a
`uint8_t[3]`, hence the reductions modulo 256. -/
def EEPROM_SPI_WritePage_trace (writeOp wren wrdi : ℕ) (WriteAddr : ℕ)
    (f : ℕ → HALStatus) : List BusEvent :=
  [BusEvent.waitBusReady]
    ++ sEE_WriteEnable_trace wren
    ++ [BusEvent.csLow,
        BusEvent.sendInstruction
          [writeOp % 256, (WriteAddr >>> 8) % 256, WriteAddr % 256]]
    ++ payloadAttemptTrace f 0 4
    ++ [BusEvent.csHigh, BusEvent.pollStandby]
    ++ sEE_WriteDisable_trace wrdi

/-- `EEPROM_SPI_ReadBuffer` (lines 223-252): wait for bus idle, select, send
the 3-byte header (read opcode + big-endian address), receive the payload
(retrying while busy), deselect; the function unconditionally returns
`EEPROM_STATUS_COMPLETE` (line 251). -/
def EEPROM_SPI_ReadBuffer (readOp ReadAddr NumByteToRead : ℕ) :
    List BusEvent × EepromOperations :=
  ([BusEvent.waitBusReady, BusEvent.csLow,
    BusEvent.sendInstruction
      [readOp % 256, (ReadAddr >>> 8) % 256, ReadAddr % 256],
    BusEvent.receiveData NumByteToRead, BusEvent.csHigh],
   EepromOperations.complete)

/-- `EEPROM_SPI_WaitStandbyState` (lines 359-384), indexed by fuel.
`wip b` abstracts the `(b & EEPROM_WIP_FLAG) == SET` test of line 378 (the
flag constants live in the header, which is not part of the source tree);
`status n` is the n-th status byte received on the bus (the inner
busy-retry of `HAL_SPI_Receive` is folded into "received").  `fuel` bounds
the number of poll iterations we are willing to observe: the source loop
itself has no bound, so `none` means the function has not returned after
`fuel` polls.  On termination the source returns `0` (line 383). -/
def waitStandbyAux (wip : ℕ → Bool) (status : ℕ → ℕ) : ℕ → ℕ → Option ℕ
  | _, 0 => none
  | n, fuel + 1 =>
    if wip (status n) then waitStandbyAux wip status (n + 1) fuel
    else some 0

/-- The standby poll observed for `fuel` iterations, starting from the first
received status byte. -/
def EEPROM_SPI_WaitStandbyState (wip : ℕ → Bool) (status : ℕ → ℕ)
    (fuel : ℕ) : Option ℕ :=
  waitStandbyAux wip status 0 fuel

/-- Sum of the lengths of a list of sub-writes. -/
def lensSum (ws : List SubWrite) : ℕ := (ws.map SubWrite.len).sum

/-- `chainFrom a o ws`: the sub-writes `ws` start at address `a` and buffer
offset `o`, and each subsequent sub-write starts exactly where the previous
one ended, both in the address space and in the source buffer. -/
def chainFrom (a o : ℕ) : List SubWrite → Prop
  | [] => True
  | w :: ws => w.addr = a ∧ w.off = o ∧ chainFrom (a + w.len) (o + w.len) ws

/-! ## Basic lemmas -/

lemma u16_eq_of_lt {n : ℕ} (h : n < 65536) : u16 n = n := Nat.mod_eq_of_lt h

@[simp] lemma lensSum_nil : lensSum [] = 0 := rfl

@[simp] lemma lensSum_cons (w : SubWrite) (ws : List SubWrite) :
    lensSum (w :: ws) = w.len + lensSum ws := by
  simp [lensSum]

@[simp] lemma lensSum_append (xs ys : List SubWrite) :
    lensSum (xs ++ ys) = lensSum xs + lensSum ys := by
  simp [lensSum]

@[simp] lemma chainFrom_nil (a o : ℕ) : chainFrom a o [] := trivial

@[simp] lemma chainFrom_cons (a o : ℕ) (w : SubWrite) (ws : List SubWrite) :
    chainFrom a o (w :: ws) ↔
      w.addr = a ∧ w.off = o ∧ chainFrom (a + w.len) (o + w.len) ws :=
  Iff.rfl

lemma chainFrom_append (a o : ℕ) (xs ys : List SubWrite) :
    chainFrom a o (xs ++ ys) ↔
      chainFrom a o xs ∧ chainFrom (a + lensSum xs) (o + lensSum xs) ys := by
  induction xs generalizing a o with
  | nil => simp
  | cons w xs ih =>
    simp only [List.cons_append, chainFrom_cons, ih, lensSum_cons,
      ← Nat.add_assoc, and_assoc]

lemma chainFrom_mem : ∀ (ws : List SubWrite) (a o : ℕ), chainFrom a o ws →
    ∀ w ∈ ws, ∃ d, d + w.len ≤ lensSum ws ∧ w.addr = a + d ∧ w.off = o + d := by
  intro ws
  induction ws with
  | nil => simp
  | cons v ws ih =>
    rintro a o ⟨ha, ho, hch⟩ w hw
    rcases List.mem_cons.1 hw with rfl | hw
    · exact ⟨0, by simp, by omega, by omega⟩
    · obtain ⟨d, hd, h1, h2⟩ := ih _ _ hch w hw
      exact ⟨v.len + d, by simp; omega, by omega, by omega⟩

lemma chainFrom_cover : ∀ (ws : List SubWrite) (a o : ℕ), chainFrom a o ws →
    ∀ x : ℕ, (∃ w ∈ ws, w.addr ≤ x ∧ x < w.addr + w.len) ↔
      a ≤ x ∧ x < a + lensSum ws := by
  intro ws
  induction ws with
  | nil => intro a o _ x; simp
  | cons w ws ih =>
    rintro a o ⟨ha, ho, hch⟩ x
    have hws := ih _ _ hch x
    constructor
    · rintro ⟨u, hu, h1, h2⟩
      rcases List.mem_cons.1 hu with rfl | hu
      · simp only [lensSum_cons]; omega
      · have := hws.1 ⟨u, hu, h1, h2⟩
        simp only [lensSum_cons]; omega
    · intro hx
      simp only [lensSum_cons] at hx
      by_cases hcase : x < a + w.len
      · exact ⟨w, List.mem_cons_self _ _, by omega, by omega⟩
      · obtain ⟨u, hu, h1, h2⟩ := hws.2 (by omega)
        exact ⟨u, List.mem_cons_of_mem _ hu, h1, h2⟩

lemma chainFrom_pairwise_le : ∀ (ws : List SubWrite) (a o : ℕ),
    chainFrom a o ws →
    List.Pairwise (fun u v => u.addr + u.len ≤ v.addr) ws := by
  intro ws
  induction ws with
  | nil => intro a o _; exact List.Pairwise.nil
  | cons w ws ih =>
    rintro a o ⟨ha, ho, hch⟩
    refine List.Pairwise.cons (fun v hv => ?_) (ih _ _ hch)
    obtain ⟨d, _, h1, _⟩ := chainFrom_mem ws _ _ hch v hv
    omega

lemma chainFrom_pairwise_lt : ∀ (ws : List SubWrite) (a o : ℕ),
    chainFrom a o ws → (∀ w ∈ ws.dropLast, 0 < w.len) →
    List.Pairwise (fun u v => u.addr < v.addr) ws := by
  intro ws
  induction ws with
  | nil => intro _ _ _ _; exact List.Pairwise.nil
  | cons w ws ih =>
    rintro a o ⟨ha, ho, hch⟩ hpos
    cases ws with
    | nil => exact List.pairwise_singleton _ _
    | cons v t =>
      have hw : 0 < w.len := hpos w (by simp)
      refine List.Pairwise.cons (fun u hu => ?_)
        (ih _ _ hch (fun u hu => hpos u ?_))
      · obtain ⟨d, _, h1, _⟩ := chainFrom_mem (v :: t) _ _ hch u hu
        omega
      · simpa using Or.inr hu

lemma chainFrom_adjacent : ∀ (ws : List SubWrite) (a o : ℕ),
    chainFrom a o ws →
    List.Chain' (fun u v => v.addr = u.addr + u.len ∧ v.off = u.off + u.len)
      ws := by
  intro ws
  induction ws with
  | nil => intro _ _ _; exact List.chain'_nil
  | cons w ws ih =>
    rintro a o ⟨ha, ho, hch⟩
    cases ws with
    | nil => exact List.chain'_singleton _
    | cons v t =>
      have hv1 := hch.1
      have hv2 := hch.2.1
      exact (List.chain'_cons).2 ⟨⟨by omega, by omega⟩, ih _ _ hch⟩

/-! ## `pageLoop` lemmas -/

lemma pageLoop_snd_off (P : ℕ) : ∀ (n addr off : ℕ),
    (pageLoop P n addr off).2.2 = off + P * n := by
  intro n
  induction n with
  | zero => intro addr off; simp [pageLoop]
  | succ n ih =>
    intro addr off
    simp only [pageLoop, ih]
    ring

lemma pageLoop_snd_addr (P : ℕ) : ∀ (n addr off : ℕ),
    addr + P * n < 65536 →
    (pageLoop P n addr off).2.1 = addr + P * n := by
  intro n
  induction n with
  | zero => intro addr off _; simp [pageLoop]
  | succ n ih =>
    intro addr off h
    have hlt : addr + P < 65536 := by nlinarith [Nat.mul_le_mul_left P (Nat.one_le_iff_ne_zero.2 (Nat.succ_ne_zero n))]
    simp only [pageLoop]
    rw [u16_eq_of_lt hlt, ih _ _ (by nlinarith)]
    ring

lemma pageLoop_chain (P : ℕ) : ∀ (n addr off : ℕ),
    addr + P * n < 65536 →
    chainFrom addr off (pageLoop P n addr off).1 := by
  intro n
  induction n with
  | zero => intro addr off _; simp [pageLoop]
  | succ n ih =>
    intro addr off h
    have hP1 : P * 1 ≤ P * (n + 1) := Nat.mul_le_mul_left P (by omega)
    have hlt : addr + P < 65536 := by
      have := Nat.mul_one P
      omega
    have hrest : chainFrom (addr + P) (off + P)
        (pageLoop P n (u16 (addr + P)) (off + P)).1 := by
      rw [u16_eq_of_lt hlt]
      refine ih (addr + P) (off + P) ?_
      have hm : P * (n + 1) = P * n + P := by ring
      omega
    exact ⟨rfl, rfl, hrest⟩

lemma pageLoop_len_mem (P : ℕ) : ∀ (n addr off : ℕ),
    ∀ w ∈ (pageLoop P n addr off).1, w.len = P := by
  intro n
  induction n with
  | zero => intro addr off w hw; simp [pageLoop] at hw
  | succ n ih =>
    intro addr off w hw
    simp only [pageLoop, List.mem_cons] at hw
    rcases hw with rfl | hw
    · rfl
    · exact ih _ _ w hw

lemma pageLoop_lensSum (P : ℕ) : ∀ (n addr off : ℕ),
    lensSum (pageLoop P n addr off).1 = P * n := by
  intro n
  induction n with
  | zero => intro addr off; simp [pageLoop]
  | succ n ih =>
    intro addr off
    simp only [pageLoop, lensSum_cons, ih]
    ring

lemma pageLoop_mem_addr (P : ℕ) : ∀ (n addr off : ℕ),
    addr + P * n < 65536 →
    ∀ w ∈ (pageLoop P n addr off).1,
      ∃ i, i < n ∧ w.addr = addr + P * i ∧ w.off = off + P * i := by
  intro n
  induction n with
  | zero => intro addr off _ w hw; simp [pageLoop] at hw
  | succ n ih =>
    intro addr off h w hw
    have hP1 : P * 1 ≤ P * (n + 1) := Nat.mul_le_mul_left P (by omega)
    have hlt : addr + P < 65536 := by
      have := Nat.mul_one P
      omega
    simp only [pageLoop, List.mem_cons] at hw
    rcases hw with rfl | hw
    · exact ⟨0, by omega, by simp, by simp⟩
    · rw [u16_eq_of_lt hlt] at hw
      have hm : P * (n + 1) = P * n + P := by ring
      obtain ⟨i, hi, h1, h2⟩ := ih (addr + P) (off + P) (by omega) w hw
      exact ⟨i + 1, by omega, by rw [h1]; ring, by rw [h2]; ring⟩

lemma pageLoop_mem_wrap (P A : ℕ) : ∀ (n addr off : ℕ),
    addr = (A + off) % 65536 →
    ∀ w ∈ (pageLoop P n addr off).1, w.addr = (A + w.off) % 65536 := by
  intro n
  induction n with
  | zero => intro addr off _ w hw; simp [pageLoop] at hw
  | succ n ih =>
    intro addr off ha w hw
    simp only [pageLoop, List.mem_cons] at hw
    rcases hw with rfl | hw
    · exact ha
    · refine ih (u16 (addr + P)) (off + P) ?_ w hw
      rw [ha]
      show ((A + off) % 65536 + P) % 65536 = _
      rw [Nat.mod_add_mod, Nat.add_assoc]

lemma pageLoop_snd_wrap (P A : ℕ) : ∀ (n addr off : ℕ),
    addr = (A + off) % 65536 →
    (pageLoop P n addr off).2.1 = (A + (pageLoop P n addr off).2.2) % 65536 := by
  intro n
  induction n with
  | zero => intro addr off ha; simpa [pageLoop] using ha
  | succ n ih =>
    intro addr off ha
    simp only [pageLoop]
    refine ih (u16 (addr + P)) (off + P) ?_
    rw [ha]
    show ((A + off) % 65536 + P) % 65536 = _
    rw [Nat.mod_add_mod, Nat.add_assoc]

/-- The first page boundary at or after an address: `A + (P - A % P)` is a
multiple of `P` (for `0 < P`). -/
lemma aligned_next (P A : ℕ) (hP : 0 < P) : (A + (P - A % P)) % P = 0 := by
  have h1 : P * (A / P) + A % P = A := Nat.div_add_mod A P
  have h2 : A % P < P := Nat.mod_lt A hP
  have h3 : A + (P - A % P) = P * (A / P + 1) := by
    rw [Nat.mul_add, Nat.mul_one]
    omega
  rw [h3, Nat.mul_mod_right]

/-! ## `runSubWrites` lemmas -/

lemma runSubWrites_all_complete (st : ℕ → EepromOperations)
    (h : ∀ n, st n = EepromOperations.complete) :
    ∀ (ws : List SubWrite) (k : ℕ),
      runSubWrites st k ws = (EepromOperations.complete, ws) := by
  intro ws
  induction ws with
  | nil => intro k; rfl
  | cons w ws ih =>
    intro k
    simp only [runSubWrites, h k, if_pos, ih (k + 1)]

lemma runSubWrites_take : ∀ (ws : List SubWrite)
    (st : ℕ → EepromOperations) (k : ℕ),
    ∃ t, (runSubWrites st k ws).2 ++ t = ws := by
  intro ws
  induction ws with
  | nil => intro st k; exact ⟨[], rfl⟩
  | cons w ws ih =>
    intro st k
    by_cases h : st k = EepromOperations.complete
    · obtain ⟨t, ht⟩ := ih st (k + 1)
      exact ⟨t, by simp only [runSubWrites, h, if_pos, List.cons_append, ht]⟩
    · exact ⟨ws, by simp only [runSubWrites, h, if_neg, not_false_iff]; rfl⟩

lemma runSubWrites_first_fail : ∀ (ws : List SubWrite)
    (st : ℕ → EepromOperations) (k n : ℕ),
    n < ws.length →
    (∀ i, i < n → st (k + i) = EepromOperations.complete) →
    st (k + n) ≠ EepromOperations.complete →
    runSubWrites st k ws = (st (k + n), ws.take (n + 1)) := by
  intro ws
  induction ws with
  | nil => intro st k n h; simp at h
  | cons w ws ih =>
    intro st k n hn hpre hfail
    cases n with
    | zero =>
      simp only [Nat.add_zero] at hfail ⊢
      simp only [runSubWrites, hfail, if_neg, not_false_iff, List.take_succ_cons,
        List.take_zero]
    | succ n =>
      have hk : st k = EepromOperations.complete := by
        have := hpre 0 (Nat.succ_pos n)
        simpa using this
      have hrec := ih st (k + 1) n (by simpa using hn)
        (fun i hi => by
          have := hpre (i + 1) (by omega)
          have he : k + (i + 1) = k + 1 + i := by omega
          rwa [he] at this)
        (by
          have he : k + (n + 1) = k + 1 + n := by omega
          rwa [he] at hfail)
      have he : k + 1 + n = k + (n + 1) := by omega
      rw [he] at hrec
      simp only [runSubWrites, hk, if_pos, hrec, List.take_succ_cons]

lemma runSubWrites_no_pending : ∀ (ws : List SubWrite)
    (st : ℕ → EepromOperations) (k : ℕ),
    (∀ n, st n ≠ EepromOperations.pending) →
    (runSubWrites st k ws).1 ≠ EepromOperations.pending := by
  intro ws
  induction ws with
  | nil => intro st k _ h; exact absurd (congrArg Prod.fst rfl ▸ h) (by simp [runSubWrites] at h)
  | cons w ws ih =>
    intro st k hst
    by_cases h : st k = EepromOperations.complete
    · simpa only [runSubWrites, h, if_pos] using ih st (k + 1) hst
    · simpa only [runSubWrites, h, if_neg, not_false_iff] using hst k

/-! ## Transmit retry loop lemmas -/

lemma transmitLoopAux_attempts (f : ℕ → HALStatus) : ∀ (r i : ℕ),
    i + 1 ≤ (transmitLoopAux f i r).2 ∧ (transmitLoopAux f i r).2 ≤ i + r + 1 := by
  intro r
  induction r with
  | zero => intro i; simp [transmitLoopAux]
  | succ r ih =>
    intro i
    by_cases h : f i = HALStatus.busy
    · have := ih (i + 1)
      simp only [transmitLoopAux, h, if_pos]
      omega
    · simp only [transmitLoopAux, h, if_neg, not_false_iff]
      omega

lemma transmitLoopAux_busy_before (f : ℕ → HALStatus) : ∀ (r i j : ℕ),
    i ≤ j → j + 1 < (transmitLoopAux f i r).2 → f j = HALStatus.busy := by
  intro r
  induction r with
  | zero => intro i j hij h; simp [transmitLoopAux] at h; omega
  | succ r ih =>
    intro i j hij h
    by_cases hb : f i = HALStatus.busy
    · rcases Nat.eq_or_lt_of_le hij with rfl | hij'
      · exact hb
      · simp only [transmitLoopAux, hb, if_pos] at h
        exact ih (i + 1) j hij' h
    · simp only [transmitLoopAux, hb, if_neg, not_false_iff] at h
      omega

lemma transmitLoopAux_first_stop (f : ℕ → HALStatus) : ∀ (r n i : ℕ),
    n ≤ r →
    (∀ j, i ≤ j → j < i + n → f j = HALStatus.busy) →
    f (i + n) ≠ HALStatus.busy →
    transmitLoopAux f i r = (f (i + n), i + n + 1) := by
  intro r
  induction r with
  | zero =>
    intro n i hn _ hstop
    have : n = 0 := Nat.le_zero.1 hn
    subst this
    simp [transmitLoopAux]
  | succ r ih =>
    intro n i hn hbusy hstop
    cases n with
    | zero =>
      simp only [Nat.add_zero] at hstop
      simp [transmitLoopAux, hstop]
    | succ n =>
      have hb : f i = HALStatus.busy := hbusy i le_rfl (by omega)
      have hrec := ih n (i + 1) (by omega)
        (fun j h1 h2 => hbusy j (by omega) (by omega))
        (by have he : i + 1 + n = i + (n + 1) := by omega
            rwa [he])
      simp only [transmitLoopAux, hb, if_pos, hrec]
      have he : i + 1 + n = i + (n + 1) := by omega
      rw [he]

lemma transmitLoopAux_all_busy (f : ℕ → HALStatus)
    (h : ∀ n, f n = HALStatus.busy) : ∀ (r i : ℕ),
    transmitLoopAux f i r = (HALStatus.busy, i + r + 1) := by
  intro r
  induction r with
  | zero => intro i; simp [transmitLoopAux, h i]
  | succ r ih =>
    intro i
    simp only [transmitLoopAux, h i, if_pos, ih (i + 1)]
    have he : i + 1 + r + 1 = i + (r + 1) + 1 := by omega
    rw [he]

lemma payloadAttemptTrace_not_busy (f : ℕ → HALStatus) (i r : ℕ)
    (h : f i ≠ HALStatus.busy) :
    payloadAttemptTrace f i r = [BusEvent.transmitPayload i] := by
  cases r <;> simp [payloadAttemptTrace, h]

/-! ## Standby poll lemmas -/

lemma waitStandbyAux_some_iff (wip : ℕ → Bool) (status : ℕ → ℕ) :
    ∀ (fuel n : ℕ),
      (waitStandbyAux wip status n fuel = some 0 ↔
        ∃ j, j < fuel ∧ wip (status (n + j)) = false) := by
  intro fuel
  induction fuel with
  | zero => intro n; simp [waitStandbyAux]
  | succ fuel ih =>
    intro n
    by_cases h : wip (status n)
    · simp only [waitStandbyAux, h, if_pos, ih (n + 1)]
      constructor
      · rintro ⟨j, hj, hw⟩
        refine ⟨j + 1, by omega, ?_⟩
        have he : n + (j + 1) = n + 1 + j := by omega
        rwa [he]
      · rintro ⟨j, hj, hw⟩
        cases j with
        | zero => rw [Nat.add_zero] at hw; rw [h] at hw; cases hw
        | succ j =>
          refine ⟨j, by omega, ?_⟩
          have he : n + 1 + j = n + (j + 1) := by omega
          rwa [he]
    · simp only [waitStandbyAux, h, if_neg, not_false_iff]
      simp only [Bool.not_eq_true] at h
      exact ⟨fun _ => ⟨0, by omega, by simpa using h⟩, fun _ => rfl⟩

lemma waitStandbyAux_none (wip : ℕ → Bool) (status : ℕ → ℕ)
    (h : ∀ n, wip (status n) = true) : ∀ (fuel n : ℕ),
    waitStandbyAux wip status n fuel = none := by
  intro fuel
  induction fuel with
  | zero => intro n; rfl
  | succ fuel ih =>
    intro n
    simp only [waitStandbyAux, h n, if_pos, ih (n + 1)]

lemma waitStandbyAux_zero (wip : ℕ → Bool) (status : ℕ → ℕ) :
    ∀ (fuel n r : ℕ), waitStandbyAux wip status n fuel = some r → r = 0 := by
  intro fuel
  induction fuel with
  | zero => intro n r h; cases h
  | succ fuel ih =>
    intro n r h
    by_cases hw : wip (status n)
    · simp only [waitStandbyAux, hw, if_pos] at h
      exact ih (n + 1) r h
    · simp only [waitStandbyAux, hw, if_neg, not_false_iff] at h
      exact (Option.some.inj h).symm

/-! ## Branch shapes of the splitter -/

lemma subwrites_aligned_small (P A L : ℕ) (h1 : A % P = 0) (h2 : L / P = 0) :
    EEPROM_SPI_WriteBuffer_subwrites P A L = [⟨A, L, 0⟩] := by
  simp [EEPROM_SPI_WriteBuffer_subwrites, h1, h2]

lemma subwrites_aligned_large (P A L : ℕ) (h1 : A % P = 0) (h2 : L / P ≠ 0) :
    EEPROM_SPI_WriteBuffer_subwrites P A L =
      (pageLoop P (L / P) A 0).1 ++
        [⟨(pageLoop P (L / P) A 0).2.1, L % P, (pageLoop P (L / P) A 0).2.2⟩] := by
  simp [EEPROM_SPI_WriteBuffer_subwrites, h1, h2]

lemma subwrites_unaligned_two (P A L : ℕ) (h1 : ¬ A % P = 0) (h2 : L / P = 0)
    (h3 : L % P > P - A % P) :
    EEPROM_SPI_WriteBuffer_subwrites P A L =
      [⟨A, P - A % P, 0⟩,
       ⟨u16 (A + (P - A % P)), L % P - (P - A % P), P - A % P⟩] := by
  simp [EEPROM_SPI_WriteBuffer_subwrites, h1, h2, h3]

lemma subwrites_unaligned_small (P A L : ℕ) (h1 : ¬ A % P = 0) (h2 : L / P = 0)
    (h3 : ¬ L % P > P - A % P) :
    EEPROM_SPI_WriteBuffer_subwrites P A L = [⟨A, L, 0⟩] := by
  simp [EEPROM_SPI_WriteBuffer_subwrites, h1, h2, h3]

lemma subwrites_unaligned_large (P A L : ℕ) (h1 : ¬ A % P = 0) (h2 : L / P ≠ 0) :
    EEPROM_SPI_WriteBuffer_subwrites P A L =
      ⟨A, P - A % P, 0⟩ ::
        (pageLoop P ((L - (P - A % P)) / P) (u16 (A + (P - A % P))) (P - A % P)).1 ++
        (if (L - (P - A % P)) % P ≠ 0 then
          [⟨(pageLoop P ((L - (P - A % P)) / P) (u16 (A + (P - A % P))) (P - A % P)).2.1,
            (L - (P - A % P)) % P,
            (pageLoop P ((L - (P - A % P)) / P) (u16 (A + (P - A % P))) (P - A % P)).2.2⟩]
         else []) := by
  simp [EEPROM_SPI_WriteBuffer_subwrites, h1, h2]

/-! ## Master correctness lemma for the splitter (no 16-bit wrap) -/

lemma subwrites_good (P A L : ℕ) (hP : 0 < P) (hAL : A + L < 65536) :
    chainFrom A 0 (EEPROM_SPI_WriteBuffer_subwrites P A L) ∧
    lensSum (EEPROM_SPI_WriteBuffer_subwrites P A L) = L ∧
    (∀ w ∈ EEPROM_SPI_WriteBuffer_subwrites P A L, w.addr % P + w.len ≤ P) ∧
    (∀ w ∈ (EEPROM_SPI_WriteBuffer_subwrites P A L).dropLast, 0 < w.len) := by
  have hmodP : A % P < P := Nat.mod_lt A hP
  have hmodL : L % P < P := Nat.mod_lt L hP
  have hdmL : P * (L / P) + L % P = L := Nat.div_add_mod L P
  by_cases h1 : A % P = 0
  · by_cases h2 : L / P = 0
    · -- aligned start, fewer than P bytes: one sub-write (lines 120-121)
      rw [subwrites_aligned_small P A L h1 h2]
      rw [h2, Nat.mul_zero, Nat.zero_add] at hdmL
      have hLP : L < P := by omega
      refine ⟨⟨rfl, rfl, trivial⟩, by simp, ?_, by simp⟩
      intro w hw
      simp only [List.mem_singleton] at hw
      subst hw
      show A % P + L ≤ P
      omega
    · -- aligned start, L / P full pages plus unconditional remainder
      rw [subwrites_aligned_large P A L h1 h2]
      have hPn : P * (L / P) ≤ L := by omega
      have hwrap : A + P * (L / P) < 65536 := by omega
      have hsnd1 := pageLoop_snd_addr P (L / P) A 0 hwrap
      have hsnd2 := pageLoop_snd_off P (L / P) A 0
      have hchain := pageLoop_chain P (L / P) A 0 hwrap
      have hsum := pageLoop_lensSum P (L / P) A 0
      refine ⟨?_, ?_, ?_, ?_⟩
      · rw [chainFrom_append, hsum]
        exact ⟨hchain, hsnd1, hsnd2, trivial⟩
      · simp only [lensSum_append, lensSum_cons, lensSum_nil, hsum]
        omega
      · intro w hw
        rcases List.mem_append.1 hw with hw | hw
        · obtain ⟨i, hi, hai, _⟩ := pageLoop_mem_addr P (L / P) A 0 hwrap w hw
          have hlen := pageLoop_len_mem P (L / P) A 0 w hw
          rw [hai, hlen, Nat.add_mul_mod_self_left, h1]
          omega
        · simp only [List.mem_singleton] at hw
          subst hw
          show (pageLoop P (L / P) A 0).2.1 % P + L % P ≤ P
          rw [hsnd1, Nat.add_mul_mod_self_left, h1]
          omega
      · intro w hw
        rw [List.dropLast_concat] at hw
        have := pageLoop_len_mem P (L / P) A 0 w hw
        omega
  · have hcount : 0 < P - A % P := by omega
    by_cases h2 : L / P = 0
    · rw [h2, Nat.mul_zero, Nat.zero_add] at hdmL
      have hLP : L < P := by omega
      by_cases h3 : L % P > P - A % P
      · -- unaligned start, two sub-writes (lines 150-162)
        rw [subwrites_unaligned_two P A L h1 h2 h3]
        have hu : u16 (A + (P - A % P)) = A + (P - A % P) :=
          u16_eq_of_lt (by omega)
        refine ⟨?_, ?_, ?_, ?_⟩
        · refine ⟨rfl, rfl, ?_, ?_, trivial⟩
          · show u16 (A + (P - A % P)) = A + (P - A % P)
            exact hu
          · show P - A % P = 0 + (P - A % P)
            omega
        · simp only [lensSum_cons, lensSum_nil]
          omega
        · intro w hw
          simp only [List.mem_cons, List.mem_singleton, List.not_mem_nil,
            or_false] at hw
          rcases hw with rfl | rfl
          · show A % P + (P - A % P) ≤ P
            omega
          · show u16 (A + (P - A % P)) % P + (L % P - (P - A % P)) ≤ P
            rw [hu, aligned_next P A hP]
            omega
        · intro w hw
          simp only [List.dropLast_cons₂, List.dropLast_single,
            List.mem_singleton] at hw
          subst hw
          exact hcount
      · -- unaligned start, fits in the current page (lines 164-165)
        rw [subwrites_unaligned_small P A L h1 h2 h3]
        refine ⟨⟨rfl, rfl, trivial⟩, by simp, ?_, by simp⟩
        intro w hw
        simp only [List.mem_singleton] at hw
        subst hw
        show A % P + L ≤ P
        omega
    · -- unaligned start, more than a page: head, pages, guarded remainder
      have hPL : P ≤ L := by
        by_contra hc
        exact h2 (Nat.div_eq_of_lt (by omega))
      have hcle : P - A % P ≤ L := by omega
      have hdm2 : P * ((L - (P - A % P)) / P) + (L - (P - A % P)) % P
          = L - (P - A % P) := Nat.div_add_mod _ P
      have hmod2 : (L - (P - A % P)) % P < P := Nat.mod_lt _ hP
      have hu : u16 (A + (P - A % P)) = A + (P - A % P) :=
        u16_eq_of_lt (by omega)
      have hPn2 : P * ((L - (P - A % P)) / P) ≤ L - (P - A % P) := by omega
      have hwrap : A + (P - A % P) + P * ((L - (P - A % P)) / P) < 65536 := by
        omega
      rw [subwrites_unaligned_large P A L h1 h2, hu]
      have hsnd1 := pageLoop_snd_addr P ((L - (P - A % P)) / P)
        (A + (P - A % P)) (P - A % P) hwrap
      have hsnd2 := pageLoop_snd_off P ((L - (P - A % P)) / P)
        (A + (P - A % P)) (P - A % P)
      have hchain := pageLoop_chain P ((L - (P - A % P)) / P)
        (A + (P - A % P)) (P - A % P) hwrap
      have hsum := pageLoop_lensSum P ((L - (P - A % P)) / P)
        (A + (P - A % P)) (P - A % P)
      have hanext : (A + (P - A % P)) % P = 0 := aligned_next P A hP
      by_cases h4 : (L - (P - A % P)) % P ≠ 0
      · rw [if_pos h4, List.cons_append]
        refine ⟨?_, ?_, ?_, ?_⟩
        · refine ⟨rfl, rfl, ?_⟩
          show chainFrom (A + (P - A % P)) (0 + (P - A % P))
            ((pageLoop P ((L - (P - A % P)) / P) (A + (P - A % P))
              (P - A % P)).1 ++
             [⟨(pageLoop P ((L - (P - A % P)) / P) (A + (P - A % P))
                 (P - A % P)).2.1,
               (L - (P - A % P)) % P,
               (pageLoop P ((L - (P - A % P)) / P) (A + (P - A % P))
                 (P - A % P)).2.2⟩])
          rw [Nat.zero_add, chainFrom_append, hsum]
          refine ⟨hchain, hsnd1, ?_, trivial⟩
          show (pageLoop P ((L - (P - A % P)) / P) (A + (P - A % P))
            (P - A % P)).2.2 = P - A % P + P * ((L - (P - A % P)) / P)
          exact hsnd2
        · simp only [List.cons_append, lensSum_cons, lensSum_append,
            lensSum_nil, hsum]
          omega
        · intro w hw
          simp only [List.cons_append, List.mem_cons, List.mem_append,
            List.mem_singleton, List.not_mem_nil, or_false] at hw
          rcases hw with rfl | hw | rfl
          · show A % P + (P - A % P) ≤ P
            omega
          · obtain ⟨i, hi, hai, _⟩ := pageLoop_mem_addr P
              ((L - (P - A % P)) / P) (A + (P - A % P)) (P - A % P) hwrap w hw
            have hlen := pageLoop_len_mem P ((L - (P - A % P)) / P)
              (A + (P - A % P)) (P - A % P) w hw
            rw [hai, hlen, Nat.add_mul_mod_self_left, hanext]
            omega
          · show (pageLoop P ((L - (P - A % P)) / P) (A + (P - A % P))
              (P - A % P)).2.1 % P + (L - (P - A % P)) % P ≤ P
            rw [hsnd1, Nat.add_mul_mod_self_left, hanext]
            omega
        · intro w hw
          rw [← List.cons_append, List.dropLast_concat] at hw
          rcases List.mem_cons.1 hw with rfl | hw
          · exact hcount
          · have := pageLoop_len_mem P ((L - (P - A % P)) / P)
              (A + (P - A % P)) (P - A % P) w hw
            omega
      · rw [if_neg h4, List.cons_append, List.append_nil]
        push_neg at h4
        refine ⟨?_, ?_, ?_, ?_⟩
        · refine ⟨rfl, rfl, ?_⟩
          show chainFrom (A + (P - A % P)) (0 + (P - A % P))
            (pageLoop P ((L - (P - A % P)) / P) (A + (P - A % P))
              (P - A % P)).1
          rw [Nat.zero_add]
          exact hchain
        · simp only [lensSum_cons, hsum]
          omega
        · intro w hw
          rcases List.mem_cons.1 hw with rfl | hw
          · show A % P + (P - A % P) ≤ P
            omega
          · obtain ⟨i, hi, hai, _⟩ := pageLoop_mem_addr P
              ((L - (P - A % P)) / P) (A + (P - A % P)) (P - A % P) hwrap w hw
            have hlen := pageLoop_len_mem P ((L - (P - A % P)) / P)
              (A + (P - A % P)) (P - A % P) w hw
            rw [hai, hlen, Nat.add_mul_mod_self_left, hanext]
            omega
        · intro w hw
          have hsub : w ∈ (⟨A, P - A % P, 0⟩ : SubWrite) ::
              (pageLoop P ((L - (P - A % P)) / P) (A + (P - A % P))
                (P - A % P)).1 := List.dropLast_subset _ hw
          rcases List.mem_cons.1 hsub with rfl | hsub
          · exact hcount
          · have := pageLoop_len_mem P ((L - (P - A % P)) / P)
              (A + (P - A % P)) (P - A % P) w hsub
            omega

/-! ## Claim theorems -/

/-- Claim C1 (amended: the claim holds provided the write range stays
strictly below the top of the 16-bit address space, `A + L < 65536`; for
`A + L ≥ 65536` the `uint16_t` address arithmetic wraps and the properties
fail, see the counterexample).  For every power-of-two page size `P`,
address `A` and length `L` with `A + L < 65536`: the sub-writes issued by
`EEPROM_SPI_WriteBuffer` (equal to the computed decomposition on an
all-successful bus) advance the buffer pointer in lockstep with the
address, are contiguous, strictly ascending, non-overlapping, cover
exactly `[A, A + L)`, and never cross a multiple-of-`P` boundary (a
sub-write reaches the next boundary only with `addr % P + len = P`, which
for `len = P` means it starts at a boundary). -/
theorem writeBuffer_split_partition (P A L : ℕ) (hP : ∃ k, P = 2 ^ k)
    (hAL : A + L < 65536) :
    (EEPROM_SPI_WriteBuffer (fun _ => EepromOperations.complete) P A L).2 =
      EEPROM_SPI_WriteBuffer_subwrites P A L ∧
    (∀ w ∈ EEPROM_SPI_WriteBuffer_subwrites P A L, w.addr = A + w.off) ∧
    List.Chain' (fun u v => v.addr = u.addr + u.len ∧ v.off = u.off + u.len)
      (EEPROM_SPI_WriteBuffer_subwrites P A L) ∧
    List.Pairwise (fun u v => u.addr < v.addr)
      (EEPROM_SPI_WriteBuffer_subwrites P A L) ∧
    List.Pairwise (fun u v => u.addr + u.len ≤ v.addr)
      (EEPROM_SPI_WriteBuffer_subwrites P A L) ∧
    (∀ x : ℕ, (∃ w ∈ EEPROM_SPI_WriteBuffer_subwrites P A L,
        w.addr ≤ x ∧ x < w.addr + w.len) ↔ A ≤ x ∧ x < A + L) ∧
    (∀ w ∈ EEPROM_SPI_WriteBuffer_subwrites P A L,
      w.len ≤ P ∧ w.addr % P + w.len ≤ P) := by
  have hP0 : 0 < P := by
    obtain ⟨k, rfl⟩ := hP
    exact Nat.pos_pow_of_pos k (by omega)
  obtain ⟨hchain, hsum, hbound, hpos⟩ := subwrites_good P A L hP0 hAL
  refine ⟨?_, ?_, ?_, ?_, ?_, ?_, ?_⟩
  · rw [EEPROM_SPI_WriteBuffer,
      runSubWrites_all_complete (fun _ => EepromOperations.complete)
        (fun _ => rfl) _ 0]
  · intro w hw
    obtain ⟨d, _, h1, h2⟩ := chainFrom_mem _ _ _ hchain w hw
    omega
  · exact chainFrom_adjacent _ _ _ hchain
  · exact chainFrom_pairwise_lt _ _ _ hchain hpos
  · exact chainFrom_pairwise_le _ _ _ hchain
  · intro x
    rw [chainFrom_cover _ _ _ hchain x, hsum]
  · intro w hw
    exact ⟨by have := hbound w hw; omega, hbound w hw⟩

/-- Witness for C1 at the concrete input `P = 32`, `A = 30`, `L = 5`. -/
theorem writeBuffer_split_partition_witness :
    (EEPROM_SPI_WriteBuffer (fun _ => EepromOperations.complete) 32 30 5).2 =
      EEPROM_SPI_WriteBuffer_subwrites 32 30 5 ∧
    (∀ w ∈ EEPROM_SPI_WriteBuffer_subwrites 32 30 5, w.addr = 30 + w.off) ∧
    List.Chain' (fun u v => v.addr = u.addr + u.len ∧ v.off = u.off + u.len)
      (EEPROM_SPI_WriteBuffer_subwrites 32 30 5) ∧
    List.Pairwise (fun u v => u.addr < v.addr)
      (EEPROM_SPI_WriteBuffer_subwrites 32 30 5) ∧
    List.Pairwise (fun u v => u.addr + u.len ≤ v.addr)
      (EEPROM_SPI_WriteBuffer_subwrites 32 30 5) ∧
    (∀ x : ℕ, (∃ w ∈ EEPROM_SPI_WriteBuffer_subwrites 32 30 5,
        w.addr ≤ x ∧ x < w.addr + w.len) ↔ 30 ≤ x ∧ x < 30 + 5) ∧
    (∀ w ∈ EEPROM_SPI_WriteBuffer_subwrites 32 30 5,
      w.len ≤ 32 ∧ w.addr % 32 + w.len ≤ 32) :=
  writeBuffer_split_partition 32 30 5 ⟨5, rfl⟩ (by omega)

/-- Counterexample for C1 as frozen: at `P = 32`, `A = 65504`, `L = 32`
(valid `uint16_t` inputs) the address counter wraps to `0` for the
unconditionally issued remainder write, so the issued sub-writes are not in
ascending address order and the final one does not advance in lockstep
with the buffer pointer. -/
theorem writeBuffer_split_wraparound_cex :
    EEPROM_SPI_WriteBuffer_subwrites 32 65504 32 =
      [⟨65504, 32, 0⟩, ⟨0, 0, 32⟩] ∧
    ¬ List.Pairwise (fun u v => u.addr < v.addr)
        (EEPROM_SPI_WriteBuffer_subwrites 32 65504 32) ∧
    ¬ (∀ w ∈ EEPROM_SPI_WriteBuffer_subwrites 32 65504 32,
        w.addr = 65504 + w.off) := by
  refine ⟨by decide, ?_, ?_⟩
  · intro h
    have h2 := h
    rw [show EEPROM_SPI_WriteBuffer_subwrites 32 65504 32 =
      [⟨65504, 32, 0⟩, ⟨0, 0, 32⟩] from by decide] at h2
    have := List.rel_of_pairwise_cons h2 (List.mem_singleton.2 rfl)
    simp at this
  · intro h
    have := h ⟨0, 0, 32⟩ (by decide)
    simp at this

/-- Claim C4: the three boundary scenarios of the spec, both as the
computed decomposition and as the calls actually executed on an
all-successful bus. -/
theorem writeBuffer_boundary_scenarios :
    EEPROM_SPI_WriteBuffer_subwrites 32 30 5 = [⟨30, 2, 0⟩, ⟨32, 3, 2⟩] ∧
    EEPROM_SPI_WriteBuffer_subwrites 32 0 65 =
      [⟨0, 32, 0⟩, ⟨32, 32, 32⟩, ⟨64, 1, 64⟩] ∧
    EEPROM_SPI_WriteBuffer_subwrites 32 20 12 = [⟨20, 12, 0⟩] ∧
    (EEPROM_SPI_WriteBuffer (fun _ => EepromOperations.complete) 32 30 5).2 =
      [⟨30, 2, 0⟩, ⟨32, 3, 2⟩] ∧
    (EEPROM_SPI_WriteBuffer (fun _ => EepromOperations.complete) 32 0 65).2 =
      [⟨0, 32, 0⟩, ⟨32, 32, 32⟩, ⟨64, 1, 64⟩] ∧
    (EEPROM_SPI_WriteBuffer (fun _ => EepromOperations.complete) 32 20 12).2 =
      [⟨20, 12, 0⟩] := by
  decide

/-- Claim C10: every address passed to a sub-write equals the original
destination address plus the buffer offset, reduced modulo `2^16` (the
`uint16_t` wrap of `WriteAddr +=`), and a buffered write whose range
extends past address 65535 still returns Complete on an all-successful
bus — no range check is performed for any input. -/
theorem writeBuffer_wraparound (P A L : ℕ) (hA : A < 65536) :
    (∀ w ∈ EEPROM_SPI_WriteBuffer_subwrites P A L,
      w.addr = (A + w.off) % 65536) ∧
    (EEPROM_SPI_WriteBuffer (fun _ => EepromOperations.complete) P A L).1 =
      EepromOperations.complete := by
  have hA0 : A = (A + 0) % 65536 := by rw [Nat.add_zero, Nat.mod_eq_of_lt hA]
  constructor
  · by_cases h1 : A % P = 0
    · by_cases h2 : L / P = 0
      · rw [subwrites_aligned_small P A L h1 h2]
        intro w hw
        simp only [List.mem_singleton] at hw
        subst hw
        exact hA0
      · rw [subwrites_aligned_large P A L h1 h2]
        intro w hw
        rcases List.mem_append.1 hw with hw | hw
        · exact pageLoop_mem_wrap P A (L / P) A 0 hA0 w hw
        · simp only [List.mem_singleton] at hw
          subst hw
          show (pageLoop P (L / P) A 0).2.1 =
            (A + (pageLoop P (L / P) A 0).2.2) % 65536
          exact pageLoop_snd_wrap P A (L / P) A 0 hA0
    · by_cases h2 : L / P = 0
      · by_cases h3 : L % P > P - A % P
        · rw [subwrites_unaligned_two P A L h1 h2 h3]
          intro w hw
          simp only [List.mem_cons, List.mem_singleton, List.not_mem_nil,
            or_false] at hw
          rcases hw with rfl | rfl
          · exact hA0
          · rfl
        · rw [subwrites_unaligned_small P A L h1 h2 h3]
          intro w hw
          simp only [List.mem_singleton] at hw
          subst hw
          exact hA0
      · rw [subwrites_unaligned_large P A L h1 h2]
        have hstart : u16 (A + (P - A % P)) = (A + (P - A % P)) % 65536 := rfl
        intro w hw
        rcases List.mem_append.1 hw with hw | hw
        · rcases List.mem_cons.1 hw with rfl | hw
          · exact hA0
          · exact pageLoop_mem_wrap P A _ _ _ hstart w hw
        · by_cases h4 : (L - (P - A % P)) % P ≠ 0
          · rw [if_pos h4] at hw
            simp only [List.mem_singleton] at hw
            subst hw
            show (pageLoop P ((L - (P - A % P)) / P) (u16 (A + (P - A % P)))
                (P - A % P)).2.1 =
              (A + (pageLoop P ((L - (P - A % P)) / P) (u16 (A + (P - A % P)))
                (P - A % P)).2.2) % 65536
            exact pageLoop_snd_wrap P A _ _ _ hstart
          · rw [if_neg h4] at hw
            simp at hw
  · rw [EEPROM_SPI_WriteBuffer,
      runSubWrites_all_complete (fun _ => EepromOperations.complete)
        (fun _ => rfl) _ 0]

/-- Witness for C10 at `P = 32`, `A = 65520`, `L = 32`: the write range
`[65520, 65552)` extends past 65535; the second sub-write lands at the
wrapped address `0` and the operation still reports Complete. -/
theorem writeBuffer_wraparound_witness :
    (∀ w ∈ EEPROM_SPI_WriteBuffer_subwrites 32 65520 32,
      w.addr = (65520 + w.off) % 65536) ∧
    (EEPROM_SPI_WriteBuffer (fun _ => EepromOperations.complete)
        32 65520 32).1 = EepromOperations.complete :=
  writeBuffer_wraparound 32 65520 32 (by omega)

/-- Claim C2 (amended): a zero-length call to `EEPROM_SPI_WritePage` is
issued exactly when `L = 0`, or when the write is page-aligned and `L` is
a multiple of `P` — the remainder sub-write is guarded by a nonzero test
only in the non-aligned multi-page path (lines 200-208); in the aligned
multi-page path (lines 140-141) it is issued unconditionally, and the
`L < P` single-write paths pass `L` itself, which may be 0. -/
theorem writeBuffer_zero_length_iff (P A L : ℕ) (hP : ∃ k, P = 2 ^ k) :
    ((∃ w ∈ EEPROM_SPI_WriteBuffer_subwrites P A L, w.len = 0) ↔
      L = 0 ∨ (A % P = 0 ∧ L % P = 0)) := by
  have hP0 : 0 < P := by
    obtain ⟨k, rfl⟩ := hP
    exact Nat.pos_pow_of_pos k (by omega)
  have hmodP : A % P < P := Nat.mod_lt A hP0
  have hmodL : L % P < P := Nat.mod_lt L hP0
  have hdmL : P * (L / P) + L % P = L := Nat.div_add_mod L P
  by_cases h1 : A % P = 0
  · by_cases h2 : L / P = 0
    · rw [subwrites_aligned_small P A L h1 h2]
      rw [h2, Nat.mul_zero, Nat.zero_add] at hdmL
      constructor
      · rintro ⟨w, hw, hlen⟩
        simp only [List.mem_singleton] at hw
        subst hw
        exact Or.inl hlen
      · rintro h
        refine ⟨⟨A, L, 0⟩, List.mem_singleton.2 rfl, ?_⟩
        show L = 0
        rcases h with rfl | ⟨_, hm⟩
        · rfl
        · omega
    · rw [subwrites_aligned_large P A L h1 h2]
      constructor
      · rintro ⟨w, hw, hlen⟩
        rcases List.mem_append.1 hw with hw | hw
        · have := pageLoop_len_mem P (L / P) A 0 w hw
          omega
        · simp only [List.mem_singleton] at hw
          subst hw
          exact Or.inr ⟨h1, hlen⟩
      · intro h
        have hm : L % P = 0 := by
          rcases h with rfl | ⟨_, hm⟩
          · exact Nat.zero_mod P
          · exact hm
        exact ⟨_, List.mem_append_right _ (List.mem_singleton.2 rfl), hm⟩
  · have hcount : 0 < P - A % P := by omega
    by_cases h2 : L / P = 0
    · rw [h2, Nat.mul_zero, Nat.zero_add] at hdmL
      by_cases h3 : L % P > P - A % P
      · rw [subwrites_unaligned_two P A L h1 h2 h3]
        constructor
        · rintro ⟨w, hw, hlen⟩
          simp only [List.mem_cons, List.mem_singleton, List.not_mem_nil,
            or_false] at hw
          rcases hw with rfl | rfl
          · exact absurd hlen (show P - A % P ≠ 0 by omega)
          · exact absurd hlen (show L % P - (P - A % P) ≠ 0 by omega)
        · rintro (rfl | ⟨ha, _⟩)
          · exact absurd hdmL (by omega)
          · exact absurd ha h1
      · rw [subwrites_unaligned_small P A L h1 h2 h3]
        constructor
        · rintro ⟨w, hw, hlen⟩
          simp only [List.mem_singleton] at hw
          subst hw
          exact Or.inl hlen
        · rintro (rfl | ⟨ha, _⟩)
          · exact ⟨⟨A, 0, 0⟩, List.mem_singleton.2 rfl, rfl⟩
          · exact absurd ha h1
    · have hPL : P ≤ L := by
        by_contra hc
        exact h2 (Nat.div_eq_of_lt (by omega))
      rw [subwrites_unaligned_large P A L h1 h2]
      constructor
      · rintro ⟨w, hw, hlen⟩
        rcases List.mem_append.1 hw with hw | hw
        · rcases List.mem_cons.1 hw with rfl | hw
          · exact absurd hlen (show P - A % P ≠ 0 by omega)
          · have := pageLoop_len_mem P _ _ _ w hw
            omega
        · by_cases h4 : (L - (P - A % P)) % P ≠ 0
          · rw [if_pos h4] at hw
            simp only [List.mem_singleton] at hw
            subst hw
            exact absurd hlen h4
          · rw [if_neg h4] at hw
            simp at hw
      · rintro (rfl | ⟨ha, _⟩)
        · exact absurd hPL (by omega)
        · exact absurd ha h1

/-- Witness for C2 at `P = 32`, `A = 0`, `L = 64`: an aligned write of an
exact multiple of the page size does issue a zero-length sub-write. -/
theorem writeBuffer_zero_length_iff_witness :
    ∃ w ∈ EEPROM_SPI_WriteBuffer_subwrites 32 0 64, w.len = 0 :=
  (writeBuffer_zero_length_iff 32 0 64 ⟨5, rfl⟩).2 (Or.inr ⟨rfl, rfl⟩)

/-- Counterexample for C2 as frozen: at `P = 32`, `A = 0`, `L = 64` (a
page-aligned write of exactly two pages) the final remainder sub-write is
issued unconditionally with length `64 mod 32 = 0`, so a zero-length call
to `EEPROM_SPI_WritePage` does occur. -/
theorem writeBuffer_zero_length_cex :
    EEPROM_SPI_WriteBuffer_subwrites 32 0 64 =
      [⟨0, 32, 0⟩, ⟨32, 32, 32⟩, ⟨64, 0, 64⟩] ∧
    (∃ w ∈ EEPROM_SPI_WriteBuffer_subwrites 32 0 64, w.len = 0) ∧
    (∃ w ∈ EEPROM_SPI_WriteBuffer_subwrites 32 0 0, w.len = 0) := by
  refine ⟨by decide, ⟨⟨64, 0, 64⟩, by decide, rfl⟩, ⟨⟨0, 0, 0⟩, by decide, rfl⟩⟩

/-- Claim C3: if the `n`-th sub-write (0-based) returns a non-Complete
status and all earlier ones returned Complete, `EEPROM_SPI_WriteBuffer`
returns that status, the executed calls are exactly the first `n + 1`
computed sub-writes, and they form a prefix of the computed sequence — no
later sub-write is attempted and nothing is rolled back. -/
theorem writeBuffer_stops_at_first_failure
    (st : ℕ → EepromOperations) (P A L n : ℕ)
    (hn : n < (EEPROM_SPI_WriteBuffer_subwrites P A L).length)
    (hpre : ∀ i, i < n → st i = EepromOperations.complete)
    (hfail : st n ≠ EepromOperations.complete) :
    (EEPROM_SPI_WriteBuffer st P A L).1 = st n ∧
    (EEPROM_SPI_WriteBuffer st P A L).2 =
      (EEPROM_SPI_WriteBuffer_subwrites P A L).take (n + 1) ∧
    ∃ t, (EEPROM_SPI_WriteBuffer st P A L).2 ++ t =
      EEPROM_SPI_WriteBuffer_subwrites P A L := by
  have h := runSubWrites_first_fail (EEPROM_SPI_WriteBuffer_subwrites P A L)
    st 0 n hn
    (fun i hi => by rw [Nat.zero_add]; exact hpre i hi)
    (by rw [Nat.zero_add]; exact hfail)
  refine ⟨?_, ?_, runSubWrites_take _ _ _⟩
  · simp [EEPROM_SPI_WriteBuffer, h]
  · simp [EEPROM_SPI_WriteBuffer, h]

/-- The page-write status oracle used by the C3 witness: the second
sub-write fails with a hard error, all others succeed. -/
def stFailAtOne : ℕ → EepromOperations :=
  fun n => if n = 1 then EepromOperations.error else EepromOperations.complete

/-- Witness for C3: at `P = 32`, `A = 0`, `L = 65` with the second
sub-write failing, the operation returns that error and executes exactly
the first two of the three computed sub-writes. -/
theorem writeBuffer_stops_at_first_failure_witness :
    (EEPROM_SPI_WriteBuffer stFailAtOne 32 0 65).1 = stFailAtOne 1 ∧
    (EEPROM_SPI_WriteBuffer stFailAtOne 32 0 65).2 =
      (EEPROM_SPI_WriteBuffer_subwrites 32 0 65).take 2 ∧
    ∃ t, (EEPROM_SPI_WriteBuffer stFailAtOne 32 0 65).2 ++ t =
      EEPROM_SPI_WriteBuffer_subwrites 32 0 65 :=
  writeBuffer_stops_at_first_failure stFailAtOne 32 0 65 1 (by decide)
    (fun i hi => by
      have h0 : i = 0 := by omega
      subst h0
      rfl)
    (by decide)

/-- Claim C5: `EEPROM_SPI_WritePage` returns Error iff the payload transmit
loop ended with `HAL_ERROR`; in every other case — all five attempts busy,
or a timeout — it returns Complete. -/
theorem writePage_error_iff_hard_error (f : ℕ → HALStatus) :
    (EEPROM_SPI_WritePage f = EepromOperations.error ↔
      (transmitLoop f).1 = HALStatus.error) ∧
    (EEPROM_SPI_WritePage f = EepromOperations.complete ↔
      ¬ (transmitLoop f).1 = HALStatus.error) ∧
    ((∀ i, f i = HALStatus.busy) →
      EEPROM_SPI_WritePage f = EepromOperations.complete) ∧
    ((transmitLoop f).1 = HALStatus.timeout →
      EEPROM_SPI_WritePage f = EepromOperations.complete) := by
  by_cases h : (transmitLoop f).1 = HALStatus.error
  · refine ⟨?_, ?_, ?_, ?_⟩
    · simp [EEPROM_SPI_WritePage, h]
    · simp [EEPROM_SPI_WritePage, h]
    · intro hb
      have hall := transmitLoopAux_all_busy f hb 4 0
      simp only [transmitLoop, hall] at h
      exact absurd h (by decide)
    · intro ht
      rw [h] at ht
      exact absurd ht (by decide)
  · refine ⟨?_, ?_, fun _ => ?_, fun _ => ?_⟩ <;>
      simp [EEPROM_SPI_WritePage, h]

/-- Witness for C5: a bus that reports busy on every attempt still yields
Complete. -/
theorem writePage_error_iff_hard_error_witness :
    EEPROM_SPI_WritePage (fun _ => HALStatus.busy) =
      EepromOperations.complete :=
  (writePage_error_iff_hard_error (fun _ => HALStatus.busy)).2.2.1
    (fun _ => rfl)

/-- Claim C6: every `EEPROM_SPI_WritePage` call performs, in order and with
no step skipped: wait for bus idle; write-enable (select, WREN opcode,
deselect); select, transmit the 3-byte header — write opcode then the
16-bit address big-endian (high byte first) — then the payload; deselect;
poll the status register until the write-in-progress flag clears;
write-disable; return. -/
theorem writePage_trace_sequence (writeOp wren wrdi A : ℕ)
    (f : ℕ → HALStatus) (hop : writeOp < 256) (hA : A < 65536) :
    ∃ hi lo, EEPROM_SPI_WritePage_trace writeOp wren wrdi A f =
      [BusEvent.waitBusReady] ++
      [BusEvent.csLow, BusEvent.sendInstruction [wren % 256],
        BusEvent.csHigh] ++
      [BusEvent.csLow, BusEvent.sendInstruction [writeOp, hi, lo]] ++
      payloadAttemptTrace f 0 4 ++
      [BusEvent.csHigh, BusEvent.pollStandby] ++
      [BusEvent.csLow, BusEvent.sendInstruction [wrdi % 256],
        BusEvent.csHigh] ∧
      hi = A / 256 ∧ lo = A % 256 ∧ 256 * hi + lo = A ∧ hi < 256 ∧
      lo < 256 ∧
      (∃ rest, payloadAttemptTrace f 0 4 =
        BusEvent.transmitPayload 0 :: rest) := by
  have hdiv : A / 256 < 256 := by
    rw [Nat.div_lt_iff_lt_mul (by omega : (0:ℕ) < 256)]
    omega
  have hshift : (A >>> 8) % 256 = A / 256 := by
    have h28 : (2:ℕ) ^ 8 = 256 := by norm_num
    rw [Nat.shiftRight_eq_div_pow, h28]
    exact Nat.mod_eq_of_lt hdiv
  refine ⟨A / 256, A % 256, ?_, rfl, rfl, Nat.div_add_mod A 256, hdiv,
    Nat.mod_lt A (by omega), ?_⟩
  · rw [EEPROM_SPI_WritePage_trace, sEE_WriteEnable_trace,
      sEE_WriteDisable_trace, hshift, Nat.mod_eq_of_lt hop]
  · exact ⟨_, rfl⟩

/-- Witness for C6 at write opcode 2, WREN 6, WRDI 4, address 4660
(0x1234) and an always-ok bus. -/
theorem writePage_trace_sequence_witness :
    ∃ hi lo, EEPROM_SPI_WritePage_trace 2 6 4 4660
        (fun _ => HALStatus.ok) =
      [BusEvent.waitBusReady] ++
      [BusEvent.csLow, BusEvent.sendInstruction [6 % 256],
        BusEvent.csHigh] ++
      [BusEvent.csLow, BusEvent.sendInstruction [2, hi, lo]] ++
      payloadAttemptTrace (fun _ => HALStatus.ok) 0 4 ++
      [BusEvent.csHigh, BusEvent.pollStandby] ++
      [BusEvent.csLow, BusEvent.sendInstruction [4 % 256],
        BusEvent.csHigh] ∧
      hi = 4660 / 256 ∧ lo = 4660 % 256 ∧ 256 * hi + lo = 4660 ∧
      hi < 256 ∧ lo < 256 ∧
      (∃ rest, payloadAttemptTrace (fun _ => HALStatus.ok) 0 4 =
        BusEvent.transmitPayload 0 :: rest) :=
  writePage_trace_sequence 2 6 4 4660 (fun _ => HALStatus.ok)
    (by omega) (by omega)

/-- Claim C7: the payload transmit is attempted at most 5 times; every
attempt before the final one reported busy (so a retry happens only after
a busy report); the loop stops at the first non-busy status; four busy
reports followed by an ok still succeed with exactly 5 attempts and no
6th; and a non-busy first status produces a single transmit with no
delay. -/
theorem writePage_retry_policy (f : ℕ → HALStatus) :
    (transmitLoop f).2 ≤ 5 ∧
    (∀ j, j + 1 < (transmitLoop f).2 → f j = HALStatus.busy) ∧
    (∀ n, n < 5 → (∀ j, j < n → f j = HALStatus.busy) →
      f n ≠ HALStatus.busy → transmitLoop f = (f n, n + 1)) ∧
    ((∀ j, j < 4 → f j = HALStatus.busy) → f 4 = HALStatus.ok →
      EEPROM_SPI_WritePage f = EepromOperations.complete ∧
      (transmitLoop f).2 = 5) ∧
    (∀ i r, f i ≠ HALStatus.busy →
      payloadAttemptTrace f i r = [BusEvent.transmitPayload i]) := by
  have hstop : ∀ n, n < 5 → (∀ j, j < n → f j = HALStatus.busy) →
      f n ≠ HALStatus.busy → transmitLoop f = (f n, n + 1) := by
    intro n hn hbusy hne
    have h := transmitLoopAux_first_stop f 4 n 0 (by omega)
      (fun j _ hj => hbusy j (by omega))
      (by rw [Nat.zero_add]; exact hne)
    rw [transmitLoop, h, Nat.zero_add]
  refine ⟨?_, ?_, hstop, ?_, payloadAttemptTrace_not_busy f⟩
  · have := transmitLoopAux_attempts f 4 0
    rw [transmitLoop]
    omega
  · intro j hj
    exact transmitLoopAux_busy_before f 4 0 j (Nat.zero_le j) hj
  · intro hbusy hok
    have h := hstop 4 (by omega) hbusy (by rw [hok]; intro hc; cases hc)
    constructor
    · rw [EEPROM_SPI_WritePage, h, hok]
      rfl
    · rw [h]

/-- The bus behaviour used by the C7 witness: busy on the first four
attempts, ok on the fifth. -/
def busyFourThenOk : ℕ → HALStatus :=
  fun i => if i < 4 then HALStatus.busy else HALStatus.ok

/-- Witness for C7: with four busy reports then ok, the page write
succeeds with exactly 5 transmit attempts. -/
theorem writePage_retry_policy_witness :
    EEPROM_SPI_WritePage busyFourThenOk = EepromOperations.complete ∧
    (transmitLoop busyFourThenOk).2 = 5 :=
  (writePage_retry_policy busyFourThenOk).2.2.2.1
    (fun j hj => by simp [busyFourThenOk, hj])
    (by decide)

/-- Claim C8: the public operations return only Complete or Error —
Pending never escapes: the buffered write driven by actual page writes,
the page write itself, and the buffered read (which always returns
Complete). -/
theorem public_ops_outcomes (transmits : ℕ → ℕ → HALStatus) (P A L : ℕ)
    (f : ℕ → HALStatus) (readOp a l : ℕ) :
    ((EEPROM_SPI_WriteBuffer (fun n => EEPROM_SPI_WritePage (transmits n))
        P A L).1 = EepromOperations.complete ∨
     (EEPROM_SPI_WriteBuffer (fun n => EEPROM_SPI_WritePage (transmits n))
        P A L).1 = EepromOperations.error) ∧
    (EEPROM_SPI_WritePage f = EepromOperations.complete ∨
     EEPROM_SPI_WritePage f = EepromOperations.error) ∧
    (EEPROM_SPI_ReadBuffer readOp a l).2 = EepromOperations.complete := by
  have hpage : ∀ g : ℕ → HALStatus,
      EEPROM_SPI_WritePage g ≠ EepromOperations.pending := by
    intro g
    unfold EEPROM_SPI_WritePage
    split_ifs <;> simp
  have hw := runSubWrites_no_pending (EEPROM_SPI_WriteBuffer_subwrites P A L)
    (fun n => EEPROM_SPI_WritePage (transmits n)) 0 (fun n => hpage _)
  refine ⟨?_, ?_, rfl⟩
  · cases h : (EEPROM_SPI_WriteBuffer
        (fun n => EEPROM_SPI_WritePage (transmits n)) P A L).1 with
    | complete => exact Or.inl rfl
    | pending => exact absurd h hw
    | error => exact Or.inr rfl
  · cases h : EEPROM_SPI_WritePage f with
    | complete => exact Or.inl rfl
    | pending => exact absurd h (hpage f)
    | error => exact Or.inr rfl

/-- Claim C9: the standby poll terminates (returning 0) exactly when some
received status byte has the write-in-progress flag clear within the
observed number of polls; if every received status byte has the flag set,
it never returns (no timeout exists), and any returned value is 0. -/
theorem waitStandbyState_poll (wip : ℕ → Bool) (status : ℕ → ℕ) :
    (∀ fuel, (EEPROM_SPI_WaitStandbyState wip status fuel = some 0 ↔
      ∃ n, n < fuel ∧ wip (status n) = false)) ∧
    ((∀ n, wip (status n) = true) →
      ∀ fuel, EEPROM_SPI_WaitStandbyState wip status fuel = none) ∧
    (∀ fuel r, EEPROM_SPI_WaitStandbyState wip status fuel = some r →
      r = 0) := by
  refine ⟨fun fuel => ?_,
    fun h fuel => waitStandbyAux_none wip status h fuel 0,
    fun fuel r h => waitStandbyAux_zero wip status fuel 0 r h⟩
  have := waitStandbyAux_some_iff wip status fuel 0
  simpa using this

/-- Witness for C9: a device whose status byte always has the
write-in-progress flag set is still being polled after 1000 iterations —
the poll has not returned. -/
theorem waitStandbyState_poll_witness :
    EEPROM_SPI_WaitStandbyState (fun _ => true) (fun _ => 1) 1000 = none :=
  (waitStandbyState_poll (fun _ => true) (fun _ => 1)).2.1 (fun _ => rfl)
    1000
